import Mathlib

/-!
Shallow embedding of the merge and split routines of `generator.py`
(`merge_ui_jsons`, lines 217-268, and the per-section loop of
`split_srs_json`, lines 409-417), together with proofs of the spec's
claims about them.

Python dicts for UI components are modelled as a structure holding the
keys the code reads or writes; descriptor dicts (flat string-to-scalar
mappings) are modelled as association lists compared by item-set
equality, mirroring `frozenset(d.items())` comparison.  Optional keys
(`selector`, `classes`, `text`, `error_messages`, `pageUrl`) are
`Option`s; Python truthiness of a string is non-emptiness.

The Python merge rebuilds action/field lists from a set, whose
iteration order is unspecified; the embedding determinises that order
to first occurrence (existing descriptors first, then new ones), which
fixes the set content exactly and chooses a canonical order.
-/

namespace Generator

/-- An ActionDescriptor/FieldDescriptor: a flat mapping of string keys to
scalar values, modelled as its list of items. -/
abbrev Desc := List (String × String)

/-- Membership of an item in a descriptor, as `frozenset` membership. -/
def itemIn (p : String × String) (d : Desc) : Bool :=
  d.contains p

/-- Equality of two descriptors as `frozenset(d.items())` equality: the
item sets coincide. -/
def descEq (d1 d2 : Desc) : Bool :=
  d1.all (fun p => itemIn p d2) && d2.all (fun p => itemIn p d1)

/-- Membership of a descriptor in a list of descriptors, up to `descEq`. -/
def descIn (d : Desc) (l : List Desc) : Bool :=
  l.any (fun e => descEq e d)

/-- Add a descriptor to the accumulated list unless an equal one is
already present. -/
def addDesc (l : List Desc) (d : Desc) : List Desc :=
  if descIn d l then l else l ++ [d]

/-- Union of two descriptor lists as sets of frozensets
(`existing.union(new)` in the source), determinised to first-seen order. -/
def unionDescs (old new : List Desc) : List Desc :=
  (old ++ new).foldl addDesc []

/-- No two descriptors of the list are equal under `descEq`. -/
def descNodup : List Desc → Bool
  | [] => true
  | d :: ds => !(descIn d ds) && descNodup ds

/-- A UI component dict: the keys `merge_ui_jsons` reads or writes.
Optional keys are `Option`s (`none` models an absent key). -/
structure Component where
  selector : Option String
  classes : Option (List String)
  text : Option String
  actions : List Desc
  fields : List Desc
  error_messages : Option (List String)
  conditional : Option Bool
deriving Repr, DecidableEq

/-- A UI JSON document: `pageUrl` (optional key) and `components`. -/
structure UIDocument where
  pageUrl : Option String
  components : List Component
deriving Repr, DecidableEq

/-- The merged page data built by `merge_ui_jsons`: `pageUrl` starts as
the empty string; components are keyed by selector in insertion order. -/
structure MergedPage where
  pageUrl : String
  components : List Component
deriving Repr, DecidableEq

/-- Truthiness of `component.get("selector")`: present and non-empty. -/
def selTruthy (c : Component) : Bool :=
  match c.selector with
  | none => false
  | some s => s ≠ ""

/-- The test `component.get("classes") and "error" in component["classes"]`. -/
def hasErrorClass (c : Component) : Bool :=
  match c.classes with
  | none => false
  | some cs => cs.contains "error"

/-- Truthiness of `component.get("text")`: present and non-empty. -/
def hasText (c : Component) : Bool :=
  match c.text with
  | none => false
  | some t => t ≠ ""

/-- The merge-branch condition of lines 257 and 263: the incoming
component carries the class `"error"` and truthy text. -/
def errCond (c : Component) : Bool :=
  hasErrorClass c && hasText c

/-- The `str.strip()` of Python: drop whitespace from both ends,
computed structurally over the character list. -/
def pyStrip (s : String) : String :=
  ⟨((s.data.dropWhile Char.isWhitespace).reverse.dropWhile Char.isWhitespace).reverse⟩

/-- The trimmed text `component["text"].strip()` (empty if absent). -/
def trimmedText (c : Component) : String :=
  pyStrip (c.text.getD "")

/-- First insertion of a component (lines 230-235): a structural copy
with `error_messages` initialised to `[]` when absent. -/
def initComponent (c : Component) : Component :=
  { c with error_messages := some (c.error_messages.getD []) }

/-- The in-place merge of an incoming component into the accumulated one
(lines 236-264): union the actions and fields, append trimmed error text
when new, and set `conditional` when the incoming component is an
error-bearing element with truthy text. -/
def mergeComponent (ex c : Component) : Component :=
  let acts := unionDescs ex.actions c.actions
  let flds := unionDescs ex.fields c.fields
  let msgs0 := ex.error_messages.getD []
  let msgs :=
    if errCond c then
      let t := trimmedText c
      if t ≠ "" && !(msgs0.contains t) then msgs0 ++ [t] else msgs0
    else msgs0
  let cond := if errCond c then some true else ex.conditional
  { ex with actions := acts, fields := flds,
            error_messages := some msgs, conditional := cond }

/-- The accumulator of `merge_ui_jsons`: the merged `pageUrl` so far and
`component_map` as an insertion-ordered association list. -/
structure MergeState where
  pageUrl : String
  compMap : List (String × Component)
deriving Repr, DecidableEq

/-- Lookup in `component_map`. -/
def mapFind (m : List (String × Component)) (k : String) : Option Component :=
  (m.find? (fun p => p.1 = k)).map (fun p => p.2)

/-- In-place update of the entry under key `k` (insertion order kept). -/
def mapUpdate (m : List (String × Component)) (k : String) (v : Component) :
    List (String × Component) :=
  m.map (fun p => if p.1 = k then (k, v) else p)

/-- Processing of one component of one input document (lines 225-264). -/
def stepComponent (st : MergeState) (c : Component) : MergeState :=
  match c.selector with
  | none => st
  | some sel =>
    if sel = "" then st
    else
      match mapFind st.compMap sel with
      | none => { st with compMap := st.compMap ++ [(sel, initComponent c)] }
      | some ex => { st with compMap := mapUpdate st.compMap sel (mergeComponent ex c) }

/-- Processing of one input document (lines 221-264): take its `pageUrl`
when present and none is set yet, then fold over its components. -/
def stepDoc (st : MergeState) (d : UIDocument) : MergeState :=
  let st1 :=
    match d.pageUrl with
    | some u => if st.pageUrl = "" then { st with pageUrl := u } else st
    | none => st
  d.components.foldl stepComponent st1

/-- The initial accumulator of `merge_ui_jsons` (line 218-219). -/
def initState : MergeState := { pageUrl := "", compMap := [] }

/-- The function `merge_ui_jsons` (lines 217-268). -/
def merge_ui_jsons (docs : List UIDocument) : MergedPage :=
  let st := docs.foldl stepDoc initState
  { pageUrl := st.pageUrl, components := st.compMap.map (fun p => p.2) }

/-- Structural invariant of the merge accumulator: keys are unique, each
stored component records its key as its (non-empty) selector, and
`error_messages` is always present, having been initialised at insertion. -/
def GoodState (st : MergeState) : Prop :=
  (st.compMap.map Prod.fst).Nodup ∧
  (∀ p ∈ st.compMap, p.2.selector = some p.1 ∧ p.1 ≠ "") ∧
  (∀ p ∈ st.compMap, p.2.error_messages ≠ none)

/-- Duplicate-freedom of the per-component lists of one component. -/
def NodupComp (c : Component) : Prop :=
  descNodup c.actions = true ∧ descNodup c.fields = true ∧
    (c.error_messages.getD []).Nodup

/-- Duplicate-freedom of the per-component lists of all stored components. -/
def NodupState (st : MergeState) : Prop :=
  ∀ p ∈ st.compMap, NodupComp p.2

/-- The incoming component `c` is already absorbed by the accumulator:
its selector is stored and its descriptors are all present there. -/
def AbsorbedComp (st : MergeState) (c : Component) : Prop :=
  ∃ sel, c.selector = some sel ∧ sel ≠ "" ∧
    ∃ v, mapFind st.compMap sel = some v ∧
      (∀ d ∈ c.actions, descIn d v.actions = true) ∧
      (∀ d ∈ c.fields, descIn d v.fields = true)

/-- Duplicate-freedom of the descriptor lists of all stored components. -/
def DescNodupState (st : MergeState) : Prop :=
  ∀ p ∈ st.compMap, descNodup p.2.actions = true ∧ descNodup p.2.fields = true

/-- A section dict of the SRS JSON, as read by `split_srs_json`:
`Section_ID` and `Section_Name` are optional keys, `body` stands for the
remaining payload, which the splitter writes verbatim. -/
structure SrsSection where
  Section_ID : Option String
  Section_Name : Option String
  body : List (String × String)
deriving Repr, DecidableEq

/-- The output filename of one section (lines 410-414):
`section.get("Section_ID", "N/A")`, a dash, `section.get("Section_Name",
"Unnamed").replace(" ", "_")`, and the `.json` suffix. -/
def sectionKey (s : SrsSection) : String :=
  (s.Section_ID.getD "N/A") ++ "-" ++
    ((s.Section_Name.getD "Unnamed").replace " " "_") ++ ".json"

/-- The per-section loop of `split_srs_json` (lines 409-417): one write
per section, in order, of the unmodified section under its derived
filename. -/
def split_srs_json (sections : List SrsSection) : List (String × SrsSection) :=
  sections.foldl (fun acc s => acc ++ [(sectionKey s, s)]) []

/-- Specification-side function, following the claim's words: the first
non-empty `pageUrl` encountered scanning the inputs in order, or `""`. -/
def firstNonEmptyUrl : List UIDocument → String
  | [] => ""
  | d :: ds =>
    match d.pageUrl with
    | some u => if u = "" then firstNonEmptyUrl ds else u
    | none => firstNonEmptyUrl ds

/-- The selector of a component when present and non-empty. -/
def compSel (c : Component) : Option String :=
  match c.selector with
  | none => none
  | some s => if s = "" then none else some s

/-- All present-and-non-empty selectors of all input components, in
input order. -/
def truthySelectors (docs : List UIDocument) : List String :=
  (docs.map (fun d => d.components.filterMap compSel)).flatten

/-- Append a string unless already present. -/
def addKey (l : List String) (s : String) : List String :=
  if l.contains s then l else l ++ [s]

/-- Specification-side function: first-occurrence deduplication of a
list of strings. -/
def dedupFirst (l : List String) : List String := l.foldl addKey []

/-- All components of all input documents, in input order. -/
def allComps (docs : List UIDocument) : List Component :=
  (docs.map (fun d => d.components)).flatten

/-- The components of a list carrying the given (non-empty) selector,
in order: the history the accumulator entry for that selector sees. -/
def compsFor (k : String) (cs : List Component) : List Component :=
  cs.filter fun c => compSel c == some k

/-- The trimmed texts of the error-bearing components of a list, in
order: the candidate strings the merge branch may append to
`error_messages`. -/
def errTexts (cs : List Component) : List String :=
  cs.filterMap fun c =>
    if errCond c && !(trimmedText c == "") then some (trimmedText c) else none

/-- One step of the per-selector history fold: the first occurrence is
inserted as a copy, later ones are merged into the stored entry. -/
def mergeFold (o : Option Component) (c : Component) : Option Component :=
  match o with
  | none => some (initComponent c)
  | some ex => some (mergeComponent ex c)

/-! ### Checked merge

The one dict subscript of the merge loop that is not guarded by a
presence test is `existing_component["error_messages"]` (lines 259-260),
a `KeyError` if the key were absent; `component["classes"]` is guarded
by the truthiness test on `component.get("classes")`.  The checked
variant models that subscript as a fallible lookup. -/

/-- `mergeComponent` with the `existing_component["error_messages"]`
subscript modelled as a fallible dict access. -/
def mergeComponentChecked (ex c : Component) : Except String Component :=
  match ex.error_messages with
  | none => Except.error "KeyError: error_messages"
  | some msgs0 =>
    let acts := unionDescs ex.actions c.actions
    let flds := unionDescs ex.fields c.fields
    let msgs :=
      if errCond c then
        let t := trimmedText c
        if t ≠ "" && !(msgs0.contains t) then msgs0 ++ [t] else msgs0
      else msgs0
    let cond := if errCond c then some true else ex.conditional
    Except.ok { ex with actions := acts, fields := flds,
                        error_messages := some msgs, conditional := cond }

/-- `stepComponent` over the checked merge. -/
def stepComponentChecked (st : MergeState) (c : Component) :
    Except String MergeState :=
  match c.selector with
  | none => Except.ok st
  | some sel =>
    if sel = "" then Except.ok st
    else
      match mapFind st.compMap sel with
      | none => Except.ok { st with compMap := st.compMap ++ [(sel, initComponent c)] }
      | some ex =>
        (mergeComponentChecked ex c).map
          (fun m => { st with compMap := mapUpdate st.compMap sel m })

/-- `stepDoc` over the checked merge. -/
def stepDocChecked (st : MergeState) (d : UIDocument) :
    Except String MergeState :=
  let st1 :=
    match d.pageUrl with
    | some u => if st.pageUrl = "" then { st with pageUrl := u } else st
    | none => st
  d.components.foldlM stepComponentChecked st1

/-- `merge_ui_jsons` over the checked merge: errors exactly where the
Python loop would raise. -/
def merge_ui_jsons_checked (docs : List UIDocument) :
    Except String MergedPage :=
  (docs.foldlM stepDocChecked initState).map
    (fun st => { pageUrl := st.pageUrl, components := st.compMap.map (fun p => p.2) })

/-! ### Heap model

For the frame property (`merge_ui_jsons` never mutates its inputs) the
components live in an explicit store; input documents hold addresses.
Insertion appends a structural copy (`json.loads(json.dumps(component))`)
at a fresh address, and the in-place merge writes only through the
address stored in `component_map`. -/

/-- The store of component objects; an address is an index. -/
abbrev Heap := List Component

/-- Fallback value for an out-of-range read (never hit on well-formed
inputs; its value is irrelevant to the frame property). -/
def defaultComponent : Component :=
  { selector := none, classes := none, text := none, actions := [],
    fields := [], error_messages := none, conditional := none }

/-- Dereference of an address in the store. -/
def heapRead (h : Heap) (addr : Nat) : Component :=
  h.getD addr defaultComponent

/-- An input document referring to its components by address. -/
structure HeapDoc where
  pageUrl : Option String
  comps : List Nat
deriving Repr, DecidableEq

/-- Merge state over the store: the store itself, the merged `pageUrl`,
and `component_map` holding addresses of the accumulator's copies. -/
structure HeapMergeState where
  heap : Heap
  pageUrl : String
  compMap : List (String × Nat)
deriving Repr, DecidableEq

/-- Processing of one component (by address) in the heap model: a new
selector allocates a copy at a fresh address; a known selector mutates
the stored copy in place. -/
def stepComponentH (st : HeapMergeState) (addr : Nat) : HeapMergeState :=
  let c := heapRead st.heap addr
  match c.selector with
  | none => st
  | some sel =>
    if sel = "" then st
    else
      match st.compMap.find? (fun p => p.1 = sel) with
      | none =>
        { st with heap := st.heap ++ [initComponent c],
                  compMap := st.compMap ++ [(sel, st.heap.length)] }
      | some p =>
        let ex := heapRead st.heap p.2
        { st with heap := st.heap.set p.2 (mergeComponent ex c) }

/-- Processing of one input document in the heap model. -/
def stepDocH (st : HeapMergeState) (d : HeapDoc) : HeapMergeState :=
  let st1 :=
    match d.pageUrl with
    | some u => if st.pageUrl = "" then { st with pageUrl := u } else st
    | none => st
  d.comps.foldl stepComponentH st1

/-- `merge_ui_jsons` in the heap model, started on the store holding the
input documents' components. -/
def merge_ui_jsons_heap (h : Heap) (docs : List HeapDoc) : HeapMergeState :=
  docs.foldl stepDocH { heap := h, pageUrl := "", compMap := [] }

/-- Frame invariant of the heap-model merge: the store only grows, the
prefix holding the inputs is untouched, and every accumulator entry
points at an address allocated after the inputs. -/
def HeapInv (h0 : Heap) (st : HeapMergeState) : Prop :=
  h0.length ≤ st.heap.length ∧
  (∀ i, i < h0.length → st.heap[i]? = h0[i]?) ∧
  (∀ p ∈ st.compMap, h0.length ≤ p.2)

/-! ### Concrete values used by counterexamples and witnesses -/

/-- A plain input component (the spec's `#name` fill action). -/
def cFill : Component :=
  { selector := some "#name", classes := some [], text := none,
    actions := [[("type", "fill")]], fields := [], error_messages := some [],
    conditional := none }

/-- An error-bearing input component for the same selector. -/
def cClickErr : Component :=
  { selector := some "#name", classes := some ["error"], text := some " Required ",
    actions := [[("type", "click")]], fields := [[("name", "SP Name")]],
    error_messages := none, conditional := none }

/-- Document holding `cFill`. -/
def dFill : UIDocument := { pageUrl := some "/sp", components := [cFill] }

/-- Document holding `cClickErr`. -/
def dClickErr : UIDocument := { pageUrl := some "", components := [cClickErr] }

/-- An error-bearing component with non-whitespace text. -/
def cErrText : Component :=
  { selector := some "s", classes := some ["error"], text := some "x",
    actions := [], fields := [], error_messages := none, conditional := none }

/-- Document holding `cErrText`. -/
def dErrText : UIDocument := { pageUrl := none, components := [cErrText] }

/-- An error-bearing component whose text is whitespace only. -/
def cWhitespace : Component :=
  { selector := some "s", classes := some ["error"], text := some "   ",
    actions := [], fields := [], error_messages := none, conditional := none }

/-- Document holding `cWhitespace`. -/
def dWhitespace : UIDocument := { pageUrl := none, components := [cWhitespace] }

/-- A component carrying two equal action descriptors. -/
def cDupAction : Component :=
  { selector := some "s", classes := none, text := none,
    actions := [[("k", "v")], [("k", "v")]], fields := [],
    error_messages := none, conditional := none }

/-- Document holding `cDupAction`. -/
def dDupAction : UIDocument := { pageUrl := none, components := [cDupAction] }

/-- A component without a selector. -/
def cNoSelector : Component :=
  { selector := none, classes := none, text := some "t",
    actions := [[("a", "b")]], fields := [], error_messages := none,
    conditional := none }

/-! ### Lemmas about descriptor equality and union -/

theorem itemIn_iff (p : String × String) (d : Desc) : itemIn p d = true ↔ p ∈ d := by
  simp [itemIn, List.contains, List.elem_eq_mem]

theorem descEq_iff (d1 d2 : Desc) :
    descEq d1 d2 = true ↔ (∀ p ∈ d1, p ∈ d2) ∧ (∀ p ∈ d2, p ∈ d1) := by
  simp [descEq, List.all_eq_true, itemIn_iff]

theorem descEq_refl (d : Desc) : descEq d d = true := by
  rw [descEq_iff]
  exact ⟨fun p hp => hp, fun p hp => hp⟩

theorem descEq_comm (d1 d2 : Desc) : descEq d1 d2 = descEq d2 d1 := by
  unfold descEq
  rw [Bool.and_comm]

theorem descEq_trans {d1 d2 d3 : Desc} (h1 : descEq d1 d2 = true)
    (h2 : descEq d2 d3 = true) : descEq d1 d3 = true := by
  rw [descEq_iff] at h1 h2 ⊢
  exact ⟨fun p hp => h2.1 p (h1.1 p hp), fun p hp => h1.2 p (h2.2 p hp)⟩

theorem descIn_iff (d : Desc) (l : List Desc) :
    descIn d l = true ↔ ∃ e ∈ l, descEq e d = true := by
  simp [descIn, List.any_eq_true]

theorem descIn_append (d : Desc) (l1 l2 : List Desc) :
    descIn d (l1 ++ l2) = (descIn d l1 || descIn d l2) := by
  simp [descIn, List.any_append]

theorem descIn_cons (d e : Desc) (l : List Desc) :
    descIn d (e :: l) = (descEq e d || descIn d l) := by
  simp [descIn]

theorem descIn_self {d : Desc} {l : List Desc} (h : d ∈ l) : descIn d l = true := by
  rw [descIn_iff]
  exact ⟨d, h, descEq_refl d⟩

theorem descIn_addDesc (l : List Desc) (e d : Desc) :
    descIn d (addDesc l e) = (descIn d l || descEq e d) := by
  unfold addDesc
  by_cases h : descIn e l = true
  · rw [if_pos h]
    cases he : descEq e d with
    | false => simp
    | true =>
      obtain ⟨x, hx, hxe⟩ := (descIn_iff e l).mp h
      have hxd : descEq x d = true := descEq_trans hxe he
      rw [(descIn_iff d l).mpr ⟨x, hx, hxd⟩]
      simp
  · rw [if_neg h, descIn_append]
    simp [descIn]

theorem descIn_foldl_addDesc (l acc : List Desc) (d : Desc) :
    descIn d (l.foldl addDesc acc) = (descIn d acc || descIn d l) := by
  induction l generalizing acc with
  | nil => simp [descIn]
  | cons e es ih =>
    rw [List.foldl_cons, ih, descIn_addDesc, descIn_cons, Bool.or_assoc]

theorem descIn_unionDescs (a b : List Desc) (d : Desc) :
    descIn d (unionDescs a b) = (descIn d a || descIn d b) := by
  unfold unionDescs
  rw [descIn_foldl_addDesc, descIn_append]
  simp [descIn]

theorem descNodup_append_singleton {l : List Desc} {e : Desc}
    (h : descNodup l = true) (he : descIn e l = false) :
    descNodup (l ++ [e]) = true := by
  induction l with
  | nil => simp [descNodup, descIn]
  | cons d ds ih =>
    rw [descIn_cons, Bool.or_eq_false_iff] at he
    unfold descNodup at h
    rw [Bool.and_eq_true] at h
    have hds := ih h.2 he.2
    show descNodup (d :: (ds ++ [e])) = true
    unfold descNodup
    rw [Bool.and_eq_true]
    refine ⟨?_, hds⟩
    have hede : descEq e d = false := by
      rw [descEq_comm]
      exact he.1
    have hdds : descIn d ds = false := by
      cases hcontra : descIn d ds with
      | false => rfl
      | true => simp [hcontra] at h
    have h1 : descIn d [e] = descEq e d := by simp [descIn]
    rw [descIn_append, hdds, h1, hede]
    rfl

theorem descNodup_addDesc {l : List Desc} (h : descNodup l = true) (e : Desc) :
    descNodup (addDesc l e) = true := by
  unfold addDesc
  by_cases he : descIn e l = true
  · rw [if_pos he]
    exact h
  · rw [if_neg he]
    exact descNodup_append_singleton h (Bool.eq_false_iff.mpr he)

theorem descNodup_foldl_addDesc (l : List Desc) {acc : List Desc}
    (h : descNodup acc = true) : descNodup (l.foldl addDesc acc) = true := by
  induction l generalizing acc with
  | nil => exact h
  | cons e es ih => exact ih (descNodup_addDesc h e)

theorem descNodup_unionDescs (a b : List Desc) : descNodup (unionDescs a b) = true := by
  unfold unionDescs
  exact descNodup_foldl_addDesc _ rfl

theorem foldl_addDesc_absorb {l acc : List Desc} (h : ∀ d ∈ l, descIn d acc = true) :
    l.foldl addDesc acc = acc := by
  induction l with
  | nil => rfl
  | cons e es ih =>
    rw [List.foldl_cons]
    have he : addDesc acc e = acc := by
      unfold addDesc
      rw [if_pos (h e (List.mem_cons_self e es))]
    rw [he]
    exact ih fun d hd => h d (List.mem_cons_of_mem e hd)

theorem foldl_addDesc_of_nodup :
    ∀ (l acc : List Desc), descNodup l = true →
      (∀ d ∈ l, descIn d acc = false) → l.foldl addDesc acc = acc ++ l
  | [], acc, _, _ => by simp
  | e :: es, acc, h, hacc => by
    unfold descNodup at h
    rw [Bool.and_eq_true] at h
    rw [List.foldl_cons]
    have he : addDesc acc e = acc ++ [e] := by
      unfold addDesc
      rw [if_neg]
      rw [hacc e (List.mem_cons_self e es)]
      exact Bool.false_ne_true
    rw [he]
    have hrec := foldl_addDesc_of_nodup es (acc ++ [e]) h.2 ?_
    · rw [hrec, List.append_assoc]
      rfl
    · intro d hd
      rw [descIn_append, hacc d (List.mem_cons_of_mem e hd)]
      have hed : descEq e d = false := by
        have : descIn e es = false := by
          cases hc : descIn e es with
          | false => rfl
          | true => simp [hc] at h
        rw [descEq_comm]
        cases hc2 : descEq d e with
        | false => rfl
        | true =>
          exact absurd (descIn_iff e es |>.mpr ⟨d, hd, hc2⟩) (by rw [this]; exact Bool.false_ne_true)
      rw [descIn, List.any_cons, List.any_nil, hed]
      rfl

theorem foldl_addDesc_nil_of_nodup {l : List Desc} (h : descNodup l = true) :
    l.foldl addDesc [] = l := by
  have := foldl_addDesc_of_nodup l [] h (fun d _ => rfl)
  simpa using this

theorem unionDescs_absorb {a b : List Desc} (ha : descNodup a = true)
    (hb : ∀ d ∈ b, descIn d a = true) : unionDescs a b = a := by
  unfold unionDescs
  rw [List.foldl_append, foldl_addDesc_nil_of_nodup ha]
  exact foldl_addDesc_absorb hb

/-! ### Lemmas about the component map -/

theorem mapFind_mem {m : List (String × Component)} {k : String} {v : Component}
    (h : mapFind m k = some v) : (k, v) ∈ m := by
  unfold mapFind at h
  cases hf : m.find? (fun p => p.1 = k) with
  | none => rw [hf] at h; simp at h
  | some p =>
    rw [hf] at h
    simp only [Option.map_some'] at h
    have hpk : p.1 = k := by simpa using List.find?_some hf
    have hpm := List.mem_of_find?_eq_some hf
    have h2 : p.2 = v := Option.some.inj h
    rw [← hpk, ← h2, Prod.mk.eta]
    exact hpm

theorem mapFind_eq_none_iff (m : List (String × Component)) (k : String) :
    mapFind m k = none ↔ ∀ p ∈ m, p.1 ≠ k := by
  unfold mapFind
  cases hf : m.find? (fun p => p.1 = k) with
  | none =>
    rw [List.find?_eq_none] at hf
    simp only [Option.map_none']
    constructor
    · intro _ p hp
      simpa using hf p hp
    · intro _
      trivial
  | some p =>
    have hpk : p.1 = k := by simpa using List.find?_some hf
    have hpm := List.mem_of_find?_eq_some hf
    simp only [Option.map_some']
    constructor
    · intro h
      simp at h
    · intro h
      exact absurd hpk (h p hpm)

theorem mapFind_append_left {m : List (String × Component)} {k : String} {v : Component}
    (h : mapFind m k = some v) (l : List (String × Component)) :
    mapFind (m ++ l) k = some v := by
  unfold mapFind at h ⊢
  rw [List.find?_append]
  cases hf : m.find? (fun p => p.1 = k) with
  | none => rw [hf] at h; simp at h
  | some p =>
    rw [hf] at h
    simpa [Option.or] using h

theorem mapFind_append_new {m : List (String × Component)} {k : String}
    (h : mapFind m k = none) (v : Component) :
    mapFind (m ++ [(k, v)]) k = some v := by
  unfold mapFind at h ⊢
  rw [List.find?_append]
  cases hf : m.find? (fun p => p.1 = k) with
  | some p => rw [hf] at h; simp at h
  | none =>
    rw [List.find?_cons_of_pos _ (by simp)]
    simp [Option.or]

theorem mapFind_append_ne {m : List (String × Component)} {k k' : String}
    (h : k' ≠ k) (v : Component) :
    mapFind (m ++ [(k', v)]) k = mapFind m k := by
  unfold mapFind
  rw [List.find?_append]
  cases hf : m.find? (fun p => p.1 = k) with
  | some p => simp [Option.or]
  | none =>
    rw [List.find?_cons_of_neg _ (by simpa using h)]
    simp [Option.or]

theorem mapFind_mapUpdate_self {m : List (String × Component)} {k : String}
    {ex : Component} (h : mapFind m k = some ex) (v : Component) :
    mapFind (mapUpdate m k v) k = some v := by
  induction m with
  | nil => simp [mapFind] at h
  | cons p m ih =>
    by_cases hp : p.1 = k
    · show mapFind ((if p.1 = k then (k, v) else p) :: mapUpdate m k v) k = some v
      rw [if_pos hp]
      unfold mapFind
      rw [List.find?_cons_of_pos _ (by simp)]
      rfl
    · show mapFind ((if p.1 = k then (k, v) else p) :: mapUpdate m k v) k = some v
      rw [if_neg hp]
      unfold mapFind at h ⊢
      rw [List.find?_cons_of_neg _ (by simpa using hp)] at h
      rw [List.find?_cons_of_neg _ (by simpa using hp)]
      exact ih h

theorem mapFind_mapUpdate_ne {m : List (String × Component)} {k k' : String}
    (h : k' ≠ k) (v : Component) :
    mapFind (mapUpdate m k' v) k = mapFind m k := by
  induction m with
  | nil => rfl
  | cons p m ih =>
    show mapFind ((if p.1 = k' then (k', v) else p) :: mapUpdate m k' v) k = _
    by_cases hp : p.1 = k'
    · rw [if_pos hp]
      unfold mapFind
      rw [List.find?_cons_of_neg _ (by simpa using h),
          List.find?_cons_of_neg _ (by simp [hp, h])]
      exact ih
    · rw [if_neg hp]
      by_cases hpk : p.1 = k
      · unfold mapFind
        rw [List.find?_cons_of_pos _ (by simpa using hpk),
            List.find?_cons_of_pos _ (by simpa using hpk)]
      · unfold mapFind
        rw [List.find?_cons_of_neg _ (by simpa using hpk),
            List.find?_cons_of_neg _ (by simpa using hpk)]
        exact ih

theorem mapUpdate_absent {m : List (String × Component)} {k : String}
    (h : ∀ p ∈ m, p.1 ≠ k) (v : Component) : mapUpdate m k v = m := by
  induction m with
  | nil => rfl
  | cons p m ih =>
    show (if p.1 = k then (k, v) else p) :: mapUpdate m k v = p :: m
    rw [if_neg (h p (List.mem_cons_self p m))]
    rw [ih fun q hq => h q (List.mem_cons_of_mem p hq)]

theorem mapUpdate_self {m : List (String × Component)} {k : String} {v : Component}
    (hnodup : (m.map Prod.fst).Nodup) (h : mapFind m k = some v) :
    mapUpdate m k v = m := by
  induction m with
  | nil => cases h
  | cons p m ih =>
    rw [List.map_cons, List.nodup_cons] at hnodup
    by_cases hp : p.1 = k
    · have hv : v = p.2 := by
        unfold mapFind at h
        rw [List.find?_cons_of_pos _ (by simpa using hp)] at h
        simp only [Option.map_some'] at h
        exact (Option.some.inj h).symm
      have habs : mapUpdate m k v = m := by
        apply mapUpdate_absent _ v
        intro q hq hqk
        apply hnodup.1
        rw [hp, ← hqk]
        exact List.mem_map_of_mem Prod.fst hq
      show (if p.1 = k then (k, v) else p) :: mapUpdate m k v = p :: m
      rw [if_pos hp, habs, hv, ← hp, Prod.mk.eta]
    · show (if p.1 = k then (k, v) else p) :: mapUpdate m k v = p :: m
      rw [if_neg hp]
      unfold mapFind at h
      rw [List.find?_cons_of_neg _ (by simpa using hp)] at h
      rw [ih hnodup.2 h]

theorem mapUpdate_keys (m : List (String × Component)) (k : String) (v : Component) :
    (mapUpdate m k v).map Prod.fst = m.map Prod.fst := by
  induction m with
  | nil => rfl
  | cons p m ih =>
    show (if p.1 = k then (k, v) else p).1 :: (mapUpdate m k v).map Prod.fst = _
    by_cases hp : p.1 = k
    · rw [if_pos hp, ih]
      simp [hp]
    · rw [if_neg hp, ih]
      rfl

theorem mem_mapUpdate {m : List (String × Component)} {k : String} {v : Component}
    {p : String × Component} (h : p ∈ mapUpdate m k v) : p = (k, v) ∨ p ∈ m := by
  unfold mapUpdate at h
  obtain ⟨q, hq, hqp⟩ := List.mem_map.mp h
  by_cases hqk : q.1 = k
  · rw [if_pos hqk] at hqp
    exact Or.inl hqp.symm
  · rw [if_neg hqk] at hqp
    exact Or.inr (hqp ▸ hq)

/-! ### Case analysis of one merge step -/

theorem mergeComponent_selector (ex c : Component) :
    (mergeComponent ex c).selector = ex.selector := rfl

theorem initComponent_selector (c : Component) :
    (initComponent c).selector = c.selector := rfl

theorem mergeComponent_error_messages (ex c : Component) :
    (mergeComponent ex c).error_messages ≠ none := by
  simp [mergeComponent]

theorem stepComponent_skip {st : MergeState} {c : Component}
    (h : selTruthy c = false) : stepComponent st c = st := by
  unfold selTruthy at h
  cases hsel : c.selector with
  | none => simp [stepComponent, hsel]
  | some s =>
    rw [hsel] at h
    have hs : s = "" := by simpa using h
    simp [stepComponent, hsel, hs]

theorem stepComponent_insert {st : MergeState} {c : Component} {sel : String}
    (hsel : c.selector = some sel) (hne : sel ≠ "")
    (hfind : mapFind st.compMap sel = none) :
    stepComponent st c =
      { st with compMap := st.compMap ++ [(sel, initComponent c)] } := by
  simp [stepComponent, hsel, hne, hfind]

theorem stepComponent_merge {st : MergeState} {c : Component} {sel : String}
    {ex : Component} (hsel : c.selector = some sel) (hne : sel ≠ "")
    (hfind : mapFind st.compMap sel = some ex) :
    stepComponent st c =
      { st with compMap := mapUpdate st.compMap sel (mergeComponent ex c) } := by
  simp [stepComponent, hsel, hne, hfind]

theorem stepComponent_pageUrl (st : MergeState) (c : Component) :
    (stepComponent st c).pageUrl = st.pageUrl := by
  cases hsel : c.selector with
  | none => simp [stepComponent, hsel]
  | some s =>
    by_cases hs : s = ""
    · simp [stepComponent, hsel, hs]
    · cases hfind : mapFind st.compMap s with
      | none => simp [stepComponent, hsel, hs, hfind]
      | some ex => simp [stepComponent, hsel, hs, hfind]

theorem foldl_stepComponent_pageUrl (cs : List Component) (st : MergeState) :
    (cs.foldl stepComponent st).pageUrl = st.pageUrl := by
  induction cs generalizing st with
  | nil => rfl
  | cons c cs ih => rw [List.foldl_cons, ih, stepComponent_pageUrl]

theorem stepDoc_pageUrl (st : MergeState) (d : UIDocument) :
    (stepDoc st d).pageUrl =
      if st.pageUrl = "" then d.pageUrl.getD "" else st.pageUrl := by
  cases hp : d.pageUrl with
  | none =>
    simp only [stepDoc, hp, foldl_stepComponent_pageUrl]
    by_cases h : st.pageUrl = "" <;> simp [h]
  | some u =>
    by_cases h : st.pageUrl = ""
    · simp [stepDoc, hp, h, foldl_stepComponent_pageUrl]
    · simp [stepDoc, hp, h, foldl_stepComponent_pageUrl]

theorem foldl_stepDoc_pageUrl (docs : List UIDocument) (st : MergeState) :
    (docs.foldl stepDoc st).pageUrl =
      if st.pageUrl = "" then firstNonEmptyUrl docs else st.pageUrl := by
  induction docs generalizing st with
  | nil => by_cases h : st.pageUrl = "" <;> simp [firstNonEmptyUrl, h]
  | cons d ds ih =>
    rw [List.foldl_cons, ih, stepDoc_pageUrl]
    by_cases h : st.pageUrl = ""
    · rw [if_pos h]
      cases hp : d.pageUrl with
      | none => simp [firstNonEmptyUrl, hp, h]
      | some u =>
        by_cases hu : u = ""
        · simp [firstNonEmptyUrl, hp, hu, h]
        · simp [firstNonEmptyUrl, hp, hu, h]
    · simp [h, firstNonEmptyUrl]

/-! ### Preservation of the structural invariant -/

theorem goodState_init : GoodState initState := by
  simp [GoodState, initState]

theorem goodState_stepComponent {st : MergeState} (h : GoodState st)
    (c : Component) : GoodState (stepComponent st c) := by
  cases hsel : c.selector with
  | none =>
    rw [stepComponent_skip (by simp [selTruthy, hsel])]
    exact h
  | some s =>
    by_cases hs : s = ""
    · rw [stepComponent_skip (by simp [selTruthy, hsel, hs])]
      exact h
    · cases hfind : mapFind st.compMap s with
      | none =>
        rw [stepComponent_insert hsel hs hfind]
        obtain ⟨hkeys, hsels, hem⟩ := h
        refine ⟨?_, ?_, ?_⟩
        · rw [List.map_append, List.nodup_append]
          refine ⟨hkeys, by simp, ?_⟩
          intro a ha hb
          simp at hb
          rw [mapFind_eq_none_iff] at hfind
          obtain ⟨p, hp, hps⟩ := List.mem_map.mp ha
          exact hfind p hp (by rw [hps, hb])
        · intro p hp
          rcases List.mem_append.mp hp with hp | hp
          · exact hsels p hp
          · simp at hp
            rw [hp]
            exact ⟨by rw [initComponent_selector, hsel], hs⟩
        · intro p hp
          rcases List.mem_append.mp hp with hp | hp
          · exact hem p hp
          · simp at hp
            rw [hp]
            simp [initComponent]
      | some ex =>
        rw [stepComponent_merge hsel hs hfind]
        obtain ⟨hkeys, hsels, hem⟩ := h
        have hexmem := mapFind_mem hfind
        refine ⟨?_, ?_, ?_⟩
        · rw [mapUpdate_keys]
          exact hkeys
        · intro p hp
          rcases mem_mapUpdate hp with hp | hp
          · rw [hp]
            exact ⟨by rw [mergeComponent_selector]; exact (hsels _ hexmem).1, hs⟩
          · exact hsels p hp
        · intro p hp
          rcases mem_mapUpdate hp with hp | hp
          · rw [hp]
            exact mergeComponent_error_messages ex c
          · exact hem p hp

theorem goodState_foldl_stepComponent {st : MergeState} (h : GoodState st)
    (cs : List Component) : GoodState (cs.foldl stepComponent st) := by
  induction cs generalizing st with
  | nil => exact h
  | cons c cs ih => exact ih (goodState_stepComponent h c)

theorem goodState_setPageUrl {st : MergeState} (h : GoodState st) (u : String) :
    GoodState { st with pageUrl := u } := h

theorem goodState_stepDoc {st : MergeState} (h : GoodState st) (d : UIDocument) :
    GoodState (stepDoc st d) := by
  cases hp : d.pageUrl with
  | none =>
    simp only [stepDoc, hp]
    exact goodState_foldl_stepComponent h _
  | some u =>
    by_cases hu : st.pageUrl = ""
    · simp only [stepDoc, hp, if_pos hu]
      exact goodState_foldl_stepComponent (goodState_setPageUrl h u) _
    · simp only [stepDoc, hp, if_neg hu]
      exact goodState_foldl_stepComponent h _

theorem goodState_foldl_stepDoc {st : MergeState} (h : GoodState st)
    (docs : List UIDocument) : GoodState (docs.foldl stepDoc st) := by
  induction docs generalizing st with
  | nil => exact h
  | cons d ds ih => exact ih (goodState_stepDoc h d)

theorem goodState_merge (docs : List UIDocument) :
    GoodState (docs.foldl stepDoc initState) :=
  goodState_foldl_stepDoc goodState_init docs

/-! ### Evolution of the stored selector keys -/

theorem contains_map_fst (m : List (String × Component)) (k : String) :
    (m.map Prod.fst).contains k = true ↔ ∃ p ∈ m, p.1 = k := by
  simp [List.contains, List.elem_eq_mem, List.mem_map, eq_comm]

theorem mapFind_some_contains {m : List (String × Component)} {k : String}
    {ex : Component} (h : mapFind m k = some ex) :
    (m.map Prod.fst).contains k = true :=
  (contains_map_fst m k).mpr ⟨(k, ex), mapFind_mem h, rfl⟩

theorem mapFind_none_contains {m : List (String × Component)} {k : String}
    (h : mapFind m k = none) : (m.map Prod.fst).contains k = false := by
  rw [mapFind_eq_none_iff] at h
  cases hc : (m.map Prod.fst).contains k with
  | false => rfl
  | true =>
    obtain ⟨p, hp, hpk⟩ := (contains_map_fst m k).mp hc
    exact absurd hpk (h p hp)

theorem keys_stepComponent (st : MergeState) (c : Component) :
    (stepComponent st c).compMap.map Prod.fst =
      match compSel c with
      | none => st.compMap.map Prod.fst
      | some s => addKey (st.compMap.map Prod.fst) s := by
  cases hsel : c.selector with
  | none =>
    rw [stepComponent_skip (by simp [selTruthy, hsel])]
    simp [compSel, hsel]
  | some s =>
    by_cases hs : s = ""
    · rw [stepComponent_skip (by simp [selTruthy, hsel, hs])]
      simp [compSel, hsel, hs]
    · cases hfind : mapFind st.compMap s with
      | none =>
        rw [stepComponent_insert hsel hs hfind]
        simp only [compSel, hsel, if_neg hs]
        unfold addKey
        rw [if_neg (by rw [mapFind_none_contains hfind]; exact Bool.false_ne_true)]
        simp
      | some ex =>
        rw [stepComponent_merge hsel hs hfind]
        simp only [compSel, hsel, if_neg hs]
        unfold addKey
        rw [if_pos (mapFind_some_contains hfind)]
        exact mapUpdate_keys _ _ _

theorem keys_foldl_stepComponent (cs : List Component) (st : MergeState) :
    (cs.foldl stepComponent st).compMap.map Prod.fst =
      (cs.filterMap compSel).foldl addKey (st.compMap.map Prod.fst) := by
  induction cs generalizing st with
  | nil => rfl
  | cons c cs ih =>
    rw [List.foldl_cons, ih]
    cases hc : compSel c with
    | none =>
      rw [List.filterMap_cons_none hc, keys_stepComponent, hc]
    | some s =>
      rw [List.filterMap_cons_some hc, List.foldl_cons, keys_stepComponent, hc]

theorem keys_stepDoc (st : MergeState) (d : UIDocument) :
    (stepDoc st d).compMap.map Prod.fst =
      (d.components.filterMap compSel).foldl addKey (st.compMap.map Prod.fst) := by
  cases hp : d.pageUrl with
  | none =>
    simp only [stepDoc, hp]
    exact keys_foldl_stepComponent _ _
  | some u =>
    by_cases hu : st.pageUrl = ""
    · simp only [stepDoc, hp, if_pos hu]
      exact keys_foldl_stepComponent _ _
    · simp only [stepDoc, hp, if_neg hu]
      exact keys_foldl_stepComponent _ _

theorem keys_foldl_stepDoc (docs : List UIDocument) (st : MergeState) :
    (docs.foldl stepDoc st).compMap.map Prod.fst =
      (truthySelectors docs).foldl addKey (st.compMap.map Prod.fst) := by
  induction docs generalizing st with
  | nil => rfl
  | cons d ds ih =>
    rw [List.foldl_cons, ih, keys_stepDoc]
    unfold truthySelectors
    rw [List.map_cons, List.flatten_cons, List.foldl_append]

/-! ### Preservation of duplicate-freedom -/

theorem nodup_append_singleton_str {l : List String} {t : String}
    (hl : l.Nodup) (ht : t ∉ l) : (l ++ [t]).Nodup := by
  rw [List.nodup_append]
  refine ⟨hl, List.nodup_singleton t, ?_⟩
  intro a ha hb
  simp at hb
  rw [hb] at ha
  exact ht ha

theorem mergeComponent_actions (ex c : Component) :
    (mergeComponent ex c).actions = unionDescs ex.actions c.actions := rfl

theorem mergeComponent_fields (ex c : Component) :
    (mergeComponent ex c).fields = unionDescs ex.fields c.fields := rfl

theorem mergeComponent_conditional (ex c : Component) :
    (mergeComponent ex c).conditional =
      if errCond c then some true else ex.conditional := rfl

theorem mergeComponent_msgs (ex c : Component) :
    (mergeComponent ex c).error_messages =
      some (if errCond c then
              if trimmedText c ≠ "" && !((ex.error_messages.getD []).contains (trimmedText c))
              then ex.error_messages.getD [] ++ [trimmedText c]
              else ex.error_messages.getD []
            else ex.error_messages.getD []) := rfl

theorem nodupComp_initComponent {c : Component} (h : NodupComp c) :
    NodupComp (initComponent c) := by
  obtain ⟨h1, h2, h3⟩ := h
  exact ⟨h1, h2, by simpa [initComponent] using h3⟩

theorem nodupComp_mergeComponent {ex c : Component} (hex : NodupComp ex) :
    NodupComp (mergeComponent ex c) := by
  obtain ⟨h1, h2, h3⟩ := hex
  refine ⟨?_, ?_, ?_⟩
  · rw [mergeComponent_actions]
    exact descNodup_unionDescs _ _
  · rw [mergeComponent_fields]
    exact descNodup_unionDescs _ _
  · rw [mergeComponent_msgs, Option.getD_some]
    by_cases he : errCond c = true
    · rw [if_pos he]
      by_cases ht :
          (trimmedText c ≠ "" && !((ex.error_messages.getD []).contains (trimmedText c))) = true
      · rw [if_pos ht]
        apply nodup_append_singleton_str h3
        rw [Bool.and_eq_true] at ht
        have hcf : (ex.error_messages.getD []).contains (trimmedText c) = false := by
          simpa using ht.2
        simp [List.contains, List.elem_eq_mem] at hcf
        exact hcf
      · rw [if_neg ht]
        exact h3
    · rw [if_neg he]
      exact h3

theorem nodupState_stepComponent {st : MergeState} {c : Component}
    (hst : NodupState st) (hc : NodupComp c) : NodupState (stepComponent st c) := by
  cases hsel : c.selector with
  | none =>
    rw [stepComponent_skip (by simp [selTruthy, hsel])]
    exact hst
  | some s =>
    by_cases hs : s = ""
    · rw [stepComponent_skip (by simp [selTruthy, hsel, hs])]
      exact hst
    · cases hfind : mapFind st.compMap s with
      | none =>
        rw [stepComponent_insert hsel hs hfind]
        intro p hp
        rcases List.mem_append.mp hp with hp | hp
        · exact hst p hp
        · simp at hp
          rw [hp]
          exact nodupComp_initComponent hc
      | some ex =>
        rw [stepComponent_merge hsel hs hfind]
        intro p hp
        rcases mem_mapUpdate hp with hp | hp
        · rw [hp]
          exact nodupComp_mergeComponent (hst _ (mapFind_mem hfind))
        · exact hst p hp

theorem nodupState_foldl_stepComponent {st : MergeState} {cs : List Component}
    (hst : NodupState st) (hcs : ∀ c ∈ cs, NodupComp c) :
    NodupState (cs.foldl stepComponent st) := by
  induction cs generalizing st with
  | nil => exact hst
  | cons c cs ih =>
    exact ih (nodupState_stepComponent hst (hcs c (List.mem_cons_self c cs)))
      fun c hc => hcs c (List.mem_cons_of_mem _ hc)

theorem nodupState_setPageUrl {st : MergeState} (h : NodupState st) (u : String) :
    NodupState { st with pageUrl := u } := h

theorem nodupState_stepDoc {st : MergeState} {d : UIDocument}
    (hst : NodupState st) (hd : ∀ c ∈ d.components, NodupComp c) :
    NodupState (stepDoc st d) := by
  cases hp : d.pageUrl with
  | none =>
    simp only [stepDoc, hp]
    exact nodupState_foldl_stepComponent hst hd
  | some u =>
    by_cases hu : st.pageUrl = ""
    · simp only [stepDoc, hp, if_pos hu]
      exact nodupState_foldl_stepComponent (nodupState_setPageUrl hst u) hd
    · simp only [stepDoc, hp, if_neg hu]
      exact nodupState_foldl_stepComponent hst hd

theorem nodupState_foldl_stepDoc {st : MergeState} {docs : List UIDocument}
    (hst : NodupState st) (h : ∀ d ∈ docs, ∀ c ∈ d.components, NodupComp c) :
    NodupState (docs.foldl stepDoc st) := by
  induction docs generalizing st with
  | nil => exact hst
  | cons d ds ih =>
    exact ih (nodupState_stepDoc hst (h d (List.mem_cons_self d ds)))
      fun e he => h e (List.mem_cons_of_mem _ he)

/-! ### The checked merge never errors -/

theorem mergeComponentChecked_ok {ex : Component}
    (h : ex.error_messages ≠ none) (c : Component) :
    mergeComponentChecked ex c = Except.ok (mergeComponent ex c) := by
  cases hem : ex.error_messages with
  | none => exact absurd hem h
  | some l => simp [mergeComponentChecked, mergeComponent, hem]

theorem stepComponentChecked_ok {st : MergeState} (h : GoodState st)
    (c : Component) : stepComponentChecked st c = Except.ok (stepComponent st c) := by
  cases hsel : c.selector with
  | none => simp [stepComponentChecked, stepComponent, hsel]
  | some s =>
    by_cases hs : s = ""
    · simp [stepComponentChecked, stepComponent, hsel, hs]
    · cases hfind : mapFind st.compMap s with
      | none => simp [stepComponentChecked, stepComponent, hsel, hs, hfind]
      | some ex =>
        have hem : ex.error_messages ≠ none := h.2.2 _ (mapFind_mem hfind)
        simp [stepComponentChecked, stepComponent, hsel, hs, hfind,
              mergeComponentChecked_ok hem c, Except.map]

theorem foldlM_stepComponentChecked_ok {st : MergeState} (h : GoodState st)
    (cs : List Component) :
    cs.foldlM stepComponentChecked st = Except.ok (cs.foldl stepComponent st) := by
  induction cs generalizing st with
  | nil => rfl
  | cons c cs ih =>
    rw [List.foldlM_cons, stepComponentChecked_ok h c]
    show cs.foldlM stepComponentChecked (stepComponent st c) = _
    exact ih (goodState_stepComponent h c)

theorem stepDocChecked_ok {st : MergeState} (h : GoodState st) (d : UIDocument) :
    stepDocChecked st d = Except.ok (stepDoc st d) := by
  cases hp : d.pageUrl with
  | none =>
    simp only [stepDocChecked, stepDoc, hp]
    exact foldlM_stepComponentChecked_ok h _
  | some u =>
    by_cases hu : st.pageUrl = ""
    · simp only [stepDocChecked, stepDoc, hp, if_pos hu]
      exact foldlM_stepComponentChecked_ok (goodState_setPageUrl h u) _
    · simp only [stepDocChecked, stepDoc, hp, if_neg hu]
      exact foldlM_stepComponentChecked_ok h _

theorem foldlM_stepDocChecked_ok {st : MergeState} (h : GoodState st)
    (docs : List UIDocument) :
    docs.foldlM stepDocChecked st = Except.ok (docs.foldl stepDoc st) := by
  induction docs generalizing st with
  | nil => rfl
  | cons d ds ih =>
    rw [List.foldlM_cons, stepDocChecked_ok h d]
    show ds.foldlM stepDocChecked (stepDoc st d) = _
    exact ih (goodState_stepDoc h d)

/-! ### Absorption: re-merging already-merged components is a no-op -/

theorem selTruthy_iff {c : Component} :
    selTruthy c = true ↔ ∃ sel, c.selector = some sel ∧ sel ≠ "" := by
  unfold selTruthy
  cases hsel : c.selector with
  | none => simp
  | some s => simp

theorem setPageUrl_eq_self {st : MergeState} {u : String} (h : st.pageUrl = u) :
    { st with pageUrl := u } = st := by
  subst h
  rfl

theorem descNodupState_stepComponent {st : MergeState} {c : Component}
    (hst : DescNodupState st)
    (hc : descNodup c.actions = true ∧ descNodup c.fields = true) :
    DescNodupState (stepComponent st c) := by
  cases hsel : c.selector with
  | none =>
    rw [stepComponent_skip (by simp [selTruthy, hsel])]
    exact hst
  | some s =>
    by_cases hs : s = ""
    · rw [stepComponent_skip (by simp [selTruthy, hsel, hs])]
      exact hst
    · cases hfind : mapFind st.compMap s with
      | none =>
        rw [stepComponent_insert hsel hs hfind]
        intro p hp
        rcases List.mem_append.mp hp with hp | hp
        · exact hst p hp
        · simp at hp
          rw [hp]
          exact hc
      | some ex =>
        rw [stepComponent_merge hsel hs hfind]
        intro p hp
        rcases mem_mapUpdate hp with hp | hp
        · rw [hp]
          exact ⟨descNodup_unionDescs _ _, descNodup_unionDescs _ _⟩
        · exact hst p hp

theorem descNodupState_foldl_stepComponent {st : MergeState} {cs : List Component}
    (hst : DescNodupState st)
    (hcs : ∀ c ∈ cs, descNodup c.actions = true ∧ descNodup c.fields = true) :
    DescNodupState (cs.foldl stepComponent st) := by
  induction cs generalizing st with
  | nil => exact hst
  | cons c cs ih =>
    exact ih (descNodupState_stepComponent hst (hcs c (List.mem_cons_self c cs)))
      fun e he => hcs e (List.mem_cons_of_mem _ he)

theorem absorbed_stepComponent_self {st : MergeState} {c : Component} {sel : String}
    (hsel : c.selector = some sel) (hs : sel ≠ "") :
    AbsorbedComp (stepComponent st c) c := by
  cases hfind : mapFind st.compMap sel with
  | none =>
    rw [stepComponent_insert hsel hs hfind]
    exact ⟨sel, hsel, hs, initComponent c, mapFind_append_new hfind _,
      fun d hd => descIn_self hd, fun d hd => descIn_self hd⟩
  | some ex =>
    rw [stepComponent_merge hsel hs hfind]
    refine ⟨sel, hsel, hs, mergeComponent ex c, mapFind_mapUpdate_self hfind _, ?_, ?_⟩
    · intro d hd
      rw [mergeComponent_actions, descIn_unionDescs, descIn_self hd]
      simp
    · intro d hd
      rw [mergeComponent_fields, descIn_unionDescs, descIn_self hd]
      simp

theorem mapFind_grows {st : MergeState} {k : String} {v : Component}
    (h : mapFind st.compMap k = some v) (c : Component) :
    ∃ w, mapFind (stepComponent st c).compMap k = some w ∧
      (∀ d, descIn d v.actions = true → descIn d w.actions = true) ∧
      (∀ d, descIn d v.fields = true → descIn d w.fields = true) := by
  cases hsel : c.selector with
  | none =>
    rw [stepComponent_skip (by simp [selTruthy, hsel])]
    exact ⟨v, h, fun d hd => hd, fun d hd => hd⟩
  | some s =>
    by_cases hs : s = ""
    · rw [stepComponent_skip (by simp [selTruthy, hsel, hs])]
      exact ⟨v, h, fun d hd => hd, fun d hd => hd⟩
    · cases hfind : mapFind st.compMap s with
      | none =>
        rw [stepComponent_insert hsel hs hfind]
        exact ⟨v, mapFind_append_left h _, fun d hd => hd, fun d hd => hd⟩
      | some ex =>
        by_cases hks : s = k
        · subst hks
          have hexv : ex = v := by
            rw [hfind] at h
            exact Option.some.inj h
          subst hexv
          rw [stepComponent_merge hsel hs hfind]
          refine ⟨mergeComponent ex c, mapFind_mapUpdate_self hfind _, ?_, ?_⟩
          · intro d hd
            rw [mergeComponent_actions, descIn_unionDescs, hd]
            simp
          · intro d hd
            rw [mergeComponent_fields, descIn_unionDescs, hd]
            simp
        · rw [stepComponent_merge hsel hs hfind]
          refine ⟨v, ?_, fun d hd => hd, fun d hd => hd⟩
          rw [show ({ st with compMap := mapUpdate st.compMap s (mergeComponent ex c) } :
                MergeState).compMap = mapUpdate st.compMap s (mergeComponent ex c) from rfl,
              mapFind_mapUpdate_ne hks _]
          exact h

theorem absorbed_stepComponent {st : MergeState} {c0 : Component}
    (h : AbsorbedComp st c0) (c : Component) : AbsorbedComp (stepComponent st c) c0 := by
  obtain ⟨sel, hsel, hs, v, hfind, ha, hf⟩ := h
  obtain ⟨w, hw, hwa, hwf⟩ := mapFind_grows hfind c
  exact ⟨sel, hsel, hs, w, hw, fun d hd => hwa d (ha d hd), fun d hd => hwf d (hf d hd)⟩

theorem absorbed_foldl_preserve {st : MergeState} {c0 : Component}
    (h : AbsorbedComp st c0) (cs : List Component) :
    AbsorbedComp (cs.foldl stepComponent st) c0 := by
  induction cs generalizing st with
  | nil => exact h
  | cons c cs ih => exact ih (absorbed_stepComponent h c)

theorem absorbed_foldl_stepComponent {cs : List Component}
    (h : ∀ c ∈ cs, selTruthy c = true) (st : MergeState) :
    ∀ c ∈ cs, AbsorbedComp (cs.foldl stepComponent st) c := by
  induction cs generalizing st with
  | nil => intro c hc; cases hc
  | cons c cs ih =>
    intro e he
    rw [List.foldl_cons]
    rcases List.mem_cons.mp he with rfl | he
    · obtain ⟨sel, hsel, hs⟩ := selTruthy_iff.mp (h e (List.mem_cons_self e cs))
      exact absorbed_foldl_preserve (absorbed_stepComponent_self hsel hs) cs
    · exact ih (fun x hx => h x (List.mem_cons_of_mem c hx)) (stepComponent st c) e he

theorem mergeComponent_eq_self {v c : Component}
    (hact : unionDescs v.actions c.actions = v.actions)
    (hfld : unionDescs v.fields c.fields = v.fields)
    (herr : errCond c = false)
    (hem : v.error_messages ≠ none) :
    mergeComponent v c = v := by
  cases hem2 : v.error_messages with
  | none => exact absurd hem2 hem
  | some l =>
    cases v with
    | mk vs vc vt va vf vem vcd =>
      simp only at hem2 hact hfld
      subst hem2
      simp only [mergeComponent, herr, Bool.false_eq_true, if_false, Option.getD_some]
      simp [hact, hfld]

theorem stepComponent_absorbed_eq {st : MergeState} {c : Component}
    (hgood : GoodState st) (hnodup : DescNodupState st)
    (habs : AbsorbedComp st c) (herr : errCond c = false) :
    stepComponent st c = st := by
  obtain ⟨sel, hsel, hs, v, hfind, ha, hf⟩ := habs
  have hv := hnodup _ (mapFind_mem hfind)
  have hem : v.error_messages ≠ none := hgood.2.2 _ (mapFind_mem hfind)
  have hmc : mergeComponent v c = v :=
    mergeComponent_eq_self (unionDescs_absorb hv.1 ha) (unionDescs_absorb hv.2 hf) herr hem
  rw [stepComponent_merge hsel hs hfind, hmc, mapUpdate_self hgood.1 hfind]

theorem foldl_stepComponent_absorbed {st : MergeState} {cs : List Component}
    (hgood : GoodState st) (hnodup : DescNodupState st)
    (habs : ∀ c ∈ cs, AbsorbedComp st c) (herr : ∀ c ∈ cs, errCond c = false) :
    cs.foldl stepComponent st = st := by
  induction cs with
  | nil => rfl
  | cons c cs ih =>
    rw [List.foldl_cons,
        stepComponent_absorbed_eq hgood hnodup (habs c (List.mem_cons_self c cs))
          (herr c (List.mem_cons_self c cs))]
    exact ih (fun e he => habs e (List.mem_cons_of_mem c he))
      (fun e he => herr e (List.mem_cons_of_mem c he))

theorem stepDoc_eq_foldl (st : MergeState) (d : UIDocument) :
    ∃ u, stepDoc st d = d.components.foldl stepComponent { st with pageUrl := u } := by
  cases hp : d.pageUrl with
  | none =>
    refine ⟨st.pageUrl, ?_⟩
    simp only [stepDoc, hp]
  | some u =>
    by_cases hu : st.pageUrl = ""
    · refine ⟨u, ?_⟩
      simp only [stepDoc, hp, if_pos hu]
    · refine ⟨st.pageUrl, ?_⟩
      simp only [stepDoc, hp, if_neg hu]

/-! ### Skipping selector-less components -/

theorem foldl_stepComponent_skip_middle {st : MergeState} {c : Component}
    (h : selTruthy c = false) (cs1 cs2 : List Component) :
    (cs1 ++ c :: cs2).foldl stepComponent st = (cs1 ++ cs2).foldl stepComponent st := by
  rw [List.foldl_append, List.foldl_append, List.foldl_cons, stepComponent_skip h]

theorem stepDoc_skip_middle {c : Component} (h : selTruthy c = false)
    (st : MergeState) (u : Option String) (cs1 cs2 : List Component) :
    stepDoc st ⟨u, cs1 ++ c :: cs2⟩ = stepDoc st ⟨u, cs1 ++ cs2⟩ := by
  simp only [stepDoc]
  exact foldl_stepComponent_skip_middle h cs1 cs2

theorem merge_skip_middle {c : Component} (h : selTruthy c = false)
    (ds1 ds2 : List UIDocument) (u : Option String) (cs1 cs2 : List Component) :
    merge_ui_jsons (ds1 ++ ⟨u, cs1 ++ c :: cs2⟩ :: ds2) =
      merge_ui_jsons (ds1 ++ ⟨u, cs1 ++ cs2⟩ :: ds2) := by
  unfold merge_ui_jsons
  rw [List.foldl_append, List.foldl_append, List.foldl_cons, List.foldl_cons,
      stepDoc_skip_middle h]

theorem merge_components_selTruthy (docs : List UIDocument) :
    ∀ comp ∈ (merge_ui_jsons docs).components, selTruthy comp = true := by
  intro comp hcomp
  obtain ⟨hkeys, hsels, hem⟩ := goodState_merge docs
  unfold merge_ui_jsons at hcomp
  simp only [List.mem_map] at hcomp
  obtain ⟨p, hp, hpc⟩ := hcomp
  rw [selTruthy_iff]
  exact ⟨p.1, by rw [← hpc]; exact (hsels p hp).1, (hsels p hp).2⟩

/-! ### Frame preservation in the heap model -/

theorem stepComponentH_skip_none {st : HeapMergeState} {addr : Nat}
    (hsel : (heapRead st.heap addr).selector = none) :
    stepComponentH st addr = st := by
  simp [stepComponentH, hsel]

theorem stepComponentH_skip_empty {st : HeapMergeState} {addr : Nat} {sel : String}
    (hsel : (heapRead st.heap addr).selector = some sel)
    (hs : sel = "") : stepComponentH st addr = st := by
  simp [stepComponentH, hsel, hs]

theorem stepComponentH_insert {st : HeapMergeState} {addr : Nat} {sel : String}
    (hsel : (heapRead st.heap addr).selector = some sel)
    (hs : sel ≠ "") (hfind : st.compMap.find? (fun p => p.1 = sel) = none) :
    stepComponentH st addr =
      { st with heap := st.heap ++ [initComponent (heapRead st.heap addr)],
                compMap := st.compMap ++ [(sel, st.heap.length)] } := by
  simp [stepComponentH, hsel, hs, hfind]

theorem stepComponentH_update {st : HeapMergeState} {addr : Nat} {sel : String}
    {q : String × Nat}
    (hsel : (heapRead st.heap addr).selector = some sel)
    (hs : sel ≠ "") (hfind : st.compMap.find? (fun p => p.1 = sel) = some q) :
    stepComponentH st addr =
      { st with
          heap := st.heap.set q.2 (mergeComponent (heapRead st.heap q.2) (heapRead st.heap addr)) } := by
  simp [stepComponentH, hsel, hs, hfind]

theorem heapInv_stepComponentH {h0 : Heap} {st : HeapMergeState}
    (h : HeapInv h0 st) (addr : Nat) : HeapInv h0 (stepComponentH st addr) := by
  obtain ⟨hlen, hget, haddr⟩ := h
  cases hsel : (heapRead st.heap addr).selector with
  | none =>
    rw [stepComponentH_skip_none hsel]
    exact ⟨hlen, hget, haddr⟩
  | some sel =>
    by_cases hs : sel = ""
    · rw [stepComponentH_skip_empty hsel hs]
      exact ⟨hlen, hget, haddr⟩
    · cases hfind : st.compMap.find? (fun p => p.1 = sel) with
      | none =>
        rw [stepComponentH_insert hsel hs hfind]
        refine ⟨?_, ?_, ?_⟩
        · rw [List.length_append]
          omega
        · intro i hi
          rw [List.getElem?_append, if_pos (lt_of_lt_of_le hi hlen)]
          exact hget i hi
        · intro p hp
          rcases List.mem_append.mp hp with hp | hp
          · exact haddr p hp
          · simp at hp
            rw [hp]
            exact hlen
      | some q =>
        rw [stepComponentH_update hsel hs hfind]
        refine ⟨?_, ?_, ?_⟩
        · rw [List.length_set]
          exact hlen
        · intro i hi
          have hne : q.2 ≠ i := by
            have := haddr q (List.mem_of_find?_eq_some hfind)
            omega
          rw [List.getElem?_set_ne hne]
          exact hget i hi
        · exact haddr

theorem heapInv_foldl_stepComponentH {h0 : Heap} {st : HeapMergeState}
    (h : HeapInv h0 st) (addrs : List Nat) :
    HeapInv h0 (addrs.foldl stepComponentH st) := by
  induction addrs generalizing st with
  | nil => exact h
  | cons a addrs ih => exact ih (heapInv_stepComponentH h a)

theorem heapInv_setPageUrl {h0 : Heap} {st : HeapMergeState}
    (h : HeapInv h0 st) (u : String) : HeapInv h0 { st with pageUrl := u } := h

theorem heapInv_stepDocH {h0 : Heap} {st : HeapMergeState}
    (h : HeapInv h0 st) (d : HeapDoc) : HeapInv h0 (stepDocH st d) := by
  cases hp : d.pageUrl with
  | none =>
    simp only [stepDocH, hp]
    exact heapInv_foldl_stepComponentH h _
  | some u =>
    by_cases hu : st.pageUrl = ""
    · simp only [stepDocH, hp, if_pos hu]
      exact heapInv_foldl_stepComponentH (heapInv_setPageUrl h u) _
    · simp only [stepDocH, hp, if_neg hu]
      exact heapInv_foldl_stepComponentH h _

theorem heapInv_foldl_stepDocH {h0 : Heap} {st : HeapMergeState}
    (h : HeapInv h0 st) (docs : List HeapDoc) :
    HeapInv h0 (docs.foldl stepDocH st) := by
  induction docs generalizing st with
  | nil => exact h
  | cons d ds ih => exact ih (heapInv_stepDocH h d)

theorem heapInv_merge (h0 : Heap) (docs : List HeapDoc) :
    HeapInv h0 (merge_ui_jsons_heap h0 docs) := by
  unfold merge_ui_jsons_heap
  refine heapInv_foldl_stepDocH ?_ docs
  exact ⟨Nat.le_refl _, fun i _ => rfl, fun p hp => (List.not_mem_nil p hp).elim⟩

/-! ### Merging two single-component documents sharing a selector -/

theorem merge_two_singletons (u1 u2 : Option String) (c1 c2 : Component) (s : String)
    (h1 : c1.selector = some s) (hs : s ≠ "") (h2 : c2.selector = some s) :
    (merge_ui_jsons [⟨u1, [c1]⟩, ⟨u2, [c2]⟩]).components =
      [mergeComponent (initComponent c1) c2] := by
  have hstep1 : ∀ st : MergeState, st.compMap = [] →
      (stepDoc st ⟨u1, [c1]⟩).compMap = [(s, initComponent c1)] := by
    intro st hst
    obtain ⟨u, hu⟩ := stepDoc_eq_foldl st ⟨u1, [c1]⟩
    rw [hu]
    show (stepComponent { st with pageUrl := u } c1).compMap = _
    have hnone : mapFind ({ st with pageUrl := u } : MergeState).compMap s = none := by
      show mapFind st.compMap s = none
      rw [hst]
      rfl
    rw [stepComponent_insert h1 hs hnone]
    show st.compMap ++ [(s, initComponent c1)] = [(s, initComponent c1)]
    rw [hst]
    rfl
  have hstep2 : ∀ st : MergeState, st.compMap = [(s, initComponent c1)] →
      (stepDoc st ⟨u2, [c2]⟩).compMap = [(s, mergeComponent (initComponent c1) c2)] := by
    intro st hst
    obtain ⟨u, hu⟩ := stepDoc_eq_foldl st ⟨u2, [c2]⟩
    rw [hu]
    show (stepComponent { st with pageUrl := u } c2).compMap = _
    have hfind : mapFind ({ st with pageUrl := u } : MergeState).compMap s
        = some (initComponent c1) := by
      show mapFind st.compMap s = some (initComponent c1)
      rw [hst]
      unfold mapFind
      rw [List.find?_cons_of_pos _ (by simp)]
      rfl
    rw [stepComponent_merge h2 hs hfind]
    show mapUpdate st.compMap s (mergeComponent (initComponent c1) c2) = _
    rw [hst]
    simp [mapUpdate]
  show ((stepDoc (stepDoc initState ⟨u1, [c1]⟩) ⟨u2, [c2]⟩).compMap.map (fun p => p.2)) = _
  rw [hstep2 _ (hstep1 initState rfl)]
  rfl

/-! ### The splitter is one write per section -/

theorem foldl_split_append (ss : List SrsSection) :
    ∀ acc : List (String × SrsSection),
      ss.foldl (fun acc s => acc ++ [(sectionKey s, s)]) acc =
        acc ++ ss.map (fun s => (sectionKey s, s)) := by
  induction ss with
  | nil => intro acc; simp
  | cons s ss ih =>
    intro acc
    rw [List.foldl_cons, ih, List.map_cons, List.append_assoc]
    rfl

theorem split_srs_json_eq_map (sections : List SrsSection) :
    split_srs_json sections = sections.map (fun s => (sectionKey s, s)) := by
  unfold split_srs_json
  rw [foldl_split_append]
  rfl

/-! ### Per-selector history of the accumulator

The entry stored under a selector is exactly the fold of `mergeFold`
over the sub-list of input components carrying that selector, which
yields the order in which `error_messages` is extended. -/

theorem mapFind_of_mem_nodup {m : List (String × Component)} {p : String × Component}
    (hnodup : (m.map Prod.fst).Nodup) (hp : p ∈ m) : mapFind m p.1 = some p.2 := by
  induction m with
  | nil => cases hp
  | cons q m ih =>
    rw [List.map_cons, List.nodup_cons] at hnodup
    rcases List.mem_cons.mp hp with rfl | hp
    · unfold mapFind
      rw [List.find?_cons_of_pos _ (by simp)]
      rfl
    · have hq : q.1 ≠ p.1 := by
        intro he
        apply hnodup.1
        rw [he]
        exact List.mem_map_of_mem Prod.fst hp
      unfold mapFind
      rw [List.find?_cons_of_neg _ (by simpa using hq)]
      exact ih hnodup.2 hp

theorem mapFind_stepComponent (st : MergeState) (c : Component) (k : String) :
    mapFind (stepComponent st c).compMap k =
      if compSel c = some k then mergeFold (mapFind st.compMap k) c
      else mapFind st.compMap k := by
  cases hsel : c.selector with
  | none =>
    rw [stepComponent_skip (by simp [selTruthy, hsel])]
    rw [if_neg (by simp [compSel, hsel])]
  | some s =>
    by_cases hs : s = ""
    · rw [stepComponent_skip (by simp [selTruthy, hsel, hs])]
      rw [if_neg (by simp [compSel, hsel, hs])]
    · have hcs : compSel c = some s := by simp [compSel, hsel, hs]
      cases hfind : mapFind st.compMap s with
      | none =>
        rw [stepComponent_insert hsel hs hfind]
        by_cases hk : s = k
        · subst hk
          rw [if_pos hcs]
          show mapFind (st.compMap ++ [(s, initComponent c)]) s = _
          rw [mapFind_append_new hfind, hfind]
          rfl
        · rw [if_neg (by rw [hcs]; simpa using hk)]
          show mapFind (st.compMap ++ [(s, initComponent c)]) k = _
          exact mapFind_append_ne hk _
      | some ex =>
        rw [stepComponent_merge hsel hs hfind]
        by_cases hk : s = k
        · subst hk
          rw [if_pos hcs]
          show mapFind (mapUpdate st.compMap s (mergeComponent ex c)) s = _
          rw [mapFind_mapUpdate_self hfind, hfind]
          rfl
        · rw [if_neg (by rw [hcs]; simpa using hk)]
          show mapFind (mapUpdate st.compMap s (mergeComponent ex c)) k = _
          exact mapFind_mapUpdate_ne hk _

theorem mapFind_foldl_stepComponent (cs : List Component) (st : MergeState) (k : String) :
    mapFind ((cs.foldl stepComponent st).compMap) k =
      (compsFor k cs).foldl mergeFold (mapFind st.compMap k) := by
  induction cs generalizing st with
  | nil => rfl
  | cons c cs ih =>
    rw [List.foldl_cons, ih, mapFind_stepComponent]
    by_cases hc : compSel c = some k
    · rw [if_pos hc]
      unfold compsFor
      rw [List.filter_cons_of_pos (by simp [hc]), List.foldl_cons]
    · rw [if_neg hc]
      unfold compsFor
      rw [List.filter_cons_of_neg (by simp [hc])]

theorem mapFind_stepDoc (st : MergeState) (d : UIDocument) (k : String) :
    mapFind ((stepDoc st d).compMap) k =
      (compsFor k d.components).foldl mergeFold (mapFind st.compMap k) := by
  cases hp : d.pageUrl with
  | none =>
    simp only [stepDoc, hp]
    exact mapFind_foldl_stepComponent _ _ _
  | some u =>
    by_cases hu : st.pageUrl = ""
    · simp only [stepDoc, hp, if_pos hu]
      exact mapFind_foldl_stepComponent _ _ _
    · simp only [stepDoc, hp, if_neg hu]
      exact mapFind_foldl_stepComponent _ _ _

theorem mapFind_foldl_stepDoc (docs : List UIDocument) (st : MergeState) (k : String) :
    mapFind ((docs.foldl stepDoc st).compMap) k =
      (compsFor k (allComps docs)).foldl mergeFold (mapFind st.compMap k) := by
  induction docs generalizing st with
  | nil => rfl
  | cons d ds ih =>
    rw [List.foldl_cons, ih, mapFind_stepDoc]
    unfold allComps compsFor
    rw [List.map_cons, List.flatten_cons, List.filter_append, List.foldl_append]

theorem foldl_mergeFold_some (cs : List Component) (ex : Component) :
    cs.foldl mergeFold (some ex) = some (cs.foldl mergeComponent ex) := by
  induction cs generalizing ex with
  | nil => rfl
  | cons c cs ih =>
    rw [List.foldl_cons, List.foldl_cons]
    exact ih (mergeComponent ex c)

theorem em_foldl_mergeComponent (cs : List Component) :
    ∀ (ex : Component) (msgs : List String), ex.error_messages = some msgs →
      (cs.foldl mergeComponent ex).error_messages =
        some ((errTexts cs).foldl addKey msgs) := by
  induction cs with
  | nil =>
    intro ex msgs hem
    exact hem
  | cons c cs ih =>
    intro ex msgs hem
    rw [List.foldl_cons]
    by_cases he : errCond c = true
    · by_cases ht : trimmedText c = ""
      · have hstep : (mergeComponent ex c).error_messages = some msgs := by
          rw [mergeComponent_msgs, hem, Option.getD_some, if_pos he,
              if_neg (by simp [ht])]
        have htext : errTexts (c :: cs) = errTexts cs := by
          simp [errTexts, ht]
        rw [htext]
        exact ih _ _ hstep
      · have hstep : (mergeComponent ex c).error_messages =
            some (addKey msgs (trimmedText c)) := by
          rw [mergeComponent_msgs, hem, Option.getD_some, if_pos he]
          unfold addKey
          by_cases hc : msgs.contains (trimmedText c) = true
          · have hmem : trimmedText c ∈ msgs := by
              simpa [List.contains, List.elem_eq_mem] using hc
            rw [if_neg (by simp [hmem]), if_pos hc]
          · have hmem : trimmedText c ∉ msgs := by
              simpa [List.contains, List.elem_eq_mem] using hc
            rw [if_pos (by simp [hmem, ht]), if_neg hc]
        have htext : errTexts (c :: cs) = trimmedText c :: errTexts cs := by
          simp [errTexts, he, ht]
        rw [htext, List.foldl_cons]
        exact ih _ _ hstep
    · have he2 : errCond c = false := Bool.eq_false_iff.mpr he
      have hstep : (mergeComponent ex c).error_messages = some msgs := by
        rw [mergeComponent_msgs, hem, Option.getD_some, if_neg he]
      have htext : errTexts (c :: cs) = errTexts cs := by
        simp [errTexts, he2]
      rw [htext]
      exact ih _ _ hstep

theorem foldl_addKey_of_nodup :
    ∀ (l acc : List String), l.Nodup → (∀ s ∈ l, acc.contains s = false) →
      l.foldl addKey acc = acc ++ l
  | [], acc, _, _ => by simp
  | s :: ss, acc, h, hacc => by
    rw [List.nodup_cons] at h
    rw [List.foldl_cons]
    have he : addKey acc s = acc ++ [s] := by
      unfold addKey
      rw [if_neg (by rw [hacc s (List.mem_cons_self s ss)]; exact Bool.false_ne_true)]
    rw [he]
    have hrec := foldl_addKey_of_nodup ss (acc ++ [s]) h.2 ?_
    · rw [hrec, List.append_assoc]
      rfl
    · intro t ht
      have h1 : acc.contains t = false := hacc t (List.mem_cons_of_mem s ht)
      have h2 : t ≠ s := fun he2 => h.1 (he2 ▸ ht)
      simp [List.contains, List.elem_eq_mem] at h1 ⊢
      exact ⟨h1, h2⟩

theorem foldl_addKey_nil_of_nodup {l : List String} (h : l.Nodup) :
    l.foldl addKey [] = l := by
  have := foldl_addKey_of_nodup l [] h (fun s _ => rfl)
  simpa using this

theorem foldl_addKey_eq_dedupFirst {msgs : List String} (h : msgs.Nodup)
    (texts : List String) :
    texts.foldl addKey msgs = dedupFirst (msgs ++ texts) := by
  unfold dedupFirst
  rw [List.foldl_append, foldl_addKey_nil_of_nodup h]

theorem mem_allComps {docs : List UIDocument} {c : Component}
    (h : c ∈ allComps docs) : ∃ d ∈ docs, c ∈ d.components := by
  unfold allComps at h
  rw [List.mem_flatten] at h
  obtain ⟨l, hl, hc⟩ := h
  rw [List.mem_map] at hl
  obtain ⟨d, hd, hdl⟩ := hl
  exact ⟨d, hd, hdl ▸ hc⟩

theorem merge_component_history (docs : List UIDocument) :
    ∀ m ∈ (merge_ui_jsons docs).components,
      ∃ k c0 rest, m.selector = some k ∧
        compsFor k (allComps docs) = c0 :: rest ∧
        m.error_messages =
          some ((errTexts rest).foldl addKey (c0.error_messages.getD [])) := by
  intro m hm
  obtain ⟨hkeys, hsels, hem⟩ := goodState_merge docs
  unfold merge_ui_jsons at hm
  simp only [List.mem_map] at hm
  obtain ⟨p, hp, hpm⟩ := hm
  have hfind : mapFind ((docs.foldl stepDoc initState).compMap) p.1 = some p.2 :=
    mapFind_of_mem_nodup hkeys hp
  rw [mapFind_foldl_stepDoc] at hfind
  have hinit : mapFind initState.compMap p.1 = none := rfl
  rw [hinit] at hfind
  cases hcf : compsFor p.1 (allComps docs) with
  | nil =>
    rw [hcf] at hfind
    simp at hfind
  | cons c0 rest =>
    rw [hcf, List.foldl_cons] at hfind
    have hmf : mergeFold none c0 = some (initComponent c0) := rfl
    rw [hmf, foldl_mergeFold_some] at hfind
    have hm2 : p.2 = rest.foldl mergeComponent (initComponent c0) :=
      (Option.some.inj hfind).symm
    refine ⟨p.1, c0, rest, ?_, hcf, ?_⟩
    · rw [← hpm]
      exact (hsels p hp).1
    · rw [← hpm, hm2]
      exact em_foldl_mergeComponent rest (initComponent c0)
        (c0.error_messages.getD []) rfl

/-! ## Claim theorems -/

/-- Claim C1, counterexample: for the document `dErrText`, all of whose
components carry a selector, merging `[D, D]` is not the same as merging
`[D]` (the second pass appends the error text and sets `conditional`). -/
theorem C1_counterexample :
    dErrText.components.all selTruthy = true ∧
    merge_ui_jsons [dErrText, dErrText] ≠ merge_ui_jsons [dErrText] := by
  constructor
  · decide
  · decide

/-- Claim C1 as amended: merging `[D, D]` equals merging `[D]` provided
every component of `D` has a non-empty selector, duplicate-free actions
and fields, and no component carries the class `"error"` together with
non-empty text. -/
theorem C1_amended (D : UIDocument)
    (h1 : ∀ c ∈ D.components, selTruthy c = true)
    (h2 : ∀ c ∈ D.components, descNodup c.actions = true ∧ descNodup c.fields = true)
    (h3 : ∀ c ∈ D.components, errCond c = false) :
    merge_ui_jsons [D, D] = merge_ui_jsons [D] := by
  have key : stepDoc (stepDoc initState D) D = stepDoc initState D := by
    set st1 := stepDoc initState D with hst1
    have hgood : GoodState st1 := goodState_stepDoc goodState_init D
    have hnodup : DescNodupState st1 := by
      obtain ⟨u, hu⟩ := stepDoc_eq_foldl initState D
      rw [hst1, hu]
      exact descNodupState_foldl_stepComponent
        (fun p hp => (List.not_mem_nil p hp).elim) h2
    have habs : ∀ c ∈ D.components, AbsorbedComp st1 c := by
      obtain ⟨u, hu⟩ := stepDoc_eq_foldl initState D
      rw [hst1, hu]
      exact absorbed_foldl_stepComponent h1 _
    have hfold : D.components.foldl stepComponent st1 = st1 :=
      foldl_stepComponent_absorbed hgood hnodup habs h3
    cases hp : D.pageUrl with
    | none =>
      simp only [stepDoc, hp]
      exact hfold
    | some u =>
      by_cases h0 : st1.pageUrl = ""
      · have hpu : st1.pageUrl = u := by
          rw [hst1, stepDoc_pageUrl]
          simp [initState, hp]
        simp only [stepDoc, hp, if_pos h0]
        rw [setPageUrl_eq_self hpu]
        exact hfold
      · simp only [stepDoc, hp, if_neg h0]
        exact hfold
  unfold merge_ui_jsons
  simp only [List.foldl_cons, List.foldl_nil]
  rw [key]

/-- Claim C1, witness: the amended idempotence at the concrete document
`dFill`. -/
theorem C1_witness :
    ((∀ c ∈ dFill.components, selTruthy c = true) ∧
     (∀ c ∈ dFill.components, descNodup c.actions = true ∧ descNodup c.fields = true) ∧
     (∀ c ∈ dFill.components, errCond c = false)) ∧
    merge_ui_jsons [dFill, dFill] = merge_ui_jsons [dFill] :=
  ⟨⟨by decide, by decide, by decide⟩,
    C1_amended dFill (by decide) (by decide) (by decide)⟩

/-- Claim C2, counterexample: merging the whitespace-text error document
with itself sets `conditional := true` although the trimmed text is
empty, refuting the claim that `conditional` is set only when the text
is non-empty after trimming. -/
theorem C2_counterexample :
    pyStrip "   " = "" ∧
    (merge_ui_jsons [dWhitespace, dWhitespace]).components.map Component.conditional =
      [some true] := by
  constructor
  · decide
  · decide

/-- Claim C2 as amended: when an incoming component meets an accumulated
one, the trimmed text is appended to `error_messages` exactly when the
incoming component carries the class `"error"`, its text is truthy, the
trimmed text is non-empty and not already present; `conditional` is set
to `true` exactly when the incoming component carries the class
`"error"` and its text is truthy — non-empty BEFORE trimming, so a
whitespace-only text also sets it — and otherwise keeps its value. -/
theorem C2_amended (u1 u2 : Option String) (c1 c2 : Component) (s : String)
    (h1 : c1.selector = some s) (hs : s ≠ "") (h2 : c2.selector = some s) :
    (merge_ui_jsons [⟨u1, [c1]⟩, ⟨u2, [c2]⟩]).components.map Component.error_messages =
      [some (if errCond c2 then
               if trimmedText c2 ≠ "" &&
                   !((c1.error_messages.getD []).contains (trimmedText c2))
               then c1.error_messages.getD [] ++ [trimmedText c2]
               else c1.error_messages.getD []
             else c1.error_messages.getD [])] ∧
    (merge_ui_jsons [⟨u1, [c1]⟩, ⟨u2, [c2]⟩]).components.map Component.conditional =
      [if errCond c2 then some true else c1.conditional] ∧
    errCond c2 = (hasErrorClass c2 && hasText c2) := by
  rw [merge_two_singletons u1 u2 c1 c2 s h1 hs h2]
  refine ⟨?_, ?_, rfl⟩
  · rw [List.map_cons, List.map_nil, mergeComponent_msgs]
    rfl
  · rw [List.map_cons, List.map_nil, mergeComponent_conditional]
    rfl

/-- Claim C2, witness: the amended characterisation at the spec's own
scenario (`cFill` then `cClickErr` under selector `#name`). -/
theorem C2_witness :
    (cFill.selector = some "#name" ∧ ("#name" : String) ≠ "" ∧
      cClickErr.selector = some "#name") ∧
    ((merge_ui_jsons [⟨some "/sp", [cFill]⟩, ⟨some "", [cClickErr]⟩]).components.map
        Component.error_messages =
      [some (if errCond cClickErr then
               if trimmedText cClickErr ≠ "" &&
                   !((cFill.error_messages.getD []).contains (trimmedText cClickErr))
               then cFill.error_messages.getD [] ++ [trimmedText cClickErr]
               else cFill.error_messages.getD []
             else cFill.error_messages.getD [])] ∧
    (merge_ui_jsons [⟨some "/sp", [cFill]⟩, ⟨some "", [cClickErr]⟩]).components.map
        Component.conditional =
      [if errCond cClickErr then some true else cFill.conditional] ∧
    errCond cClickErr = (hasErrorClass cClickErr && hasText cClickErr)) :=
  ⟨⟨rfl, by decide, rfl⟩,
    C2_amended (some "/sp") (some "") cFill cClickErr "#name" rfl (by decide) rfl⟩

/-- Claim C3, counterexample: a component whose own `actions` list holds
two equal descriptors is copied verbatim on first insertion, so the
merged output contains duplicate action descriptors. -/
theorem C3_counterexample :
    (merge_ui_jsons [dDupAction]).components.map (fun m => descNodup m.actions) =
      [false] := by
  decide

/-- Claim C3 as amended: provided every input component's `actions`,
`fields` and `error_messages` are themselves duplicate-free, every
component of the merged output has duplicate-free `actions` and
`fields`, and its `error_messages` is exactly the first-occurrence
deduplication, in first-seen order, of the first same-selector
component's copied `error_messages` followed by the trimmed error texts
of the later same-selector components in input order. -/
theorem C3_amended (docs : List UIDocument)
    (h : ∀ d ∈ docs, ∀ c ∈ d.components,
      descNodup c.actions = true ∧ descNodup c.fields = true ∧
        (c.error_messages.getD []).Nodup) :
    ∀ m ∈ (merge_ui_jsons docs).components,
      (descNodup m.actions = true ∧ descNodup m.fields = true ∧
        (m.error_messages.getD []).Nodup) ∧
      ∃ k c0 rest, m.selector = some k ∧
        compsFor k (allComps docs) = c0 :: rest ∧
        m.error_messages =
          some (dedupFirst (c0.error_messages.getD [] ++ errTexts rest)) := by
  intro m hm
  have hns : NodupState (docs.foldl stepDoc initState) :=
    nodupState_foldl_stepDoc (fun p hp => (List.not_mem_nil p hp).elim)
      (fun d hd c hc => h d hd c hc)
  have hnd : descNodup m.actions = true ∧ descNodup m.fields = true ∧
      (m.error_messages.getD []).Nodup := by
    unfold merge_ui_jsons at hm
    simp only [List.mem_map] at hm
    obtain ⟨p, hp, hpm⟩ := hm
    have hnp := hns p hp
    rw [← hpm]
    exact hnp
  refine ⟨hnd, ?_⟩
  obtain ⟨k, c0, rest, hsel, hcf, hemm⟩ := merge_component_history docs m hm
  have hc0 : c0 ∈ allComps docs := by
    have hmem : c0 ∈ compsFor k (allComps docs) := by
      rw [hcf]
      exact List.mem_cons_self c0 rest
    unfold compsFor at hmem
    exact List.mem_of_mem_filter hmem
  obtain ⟨d, hd, hcd⟩ := mem_allComps hc0
  have hnodup0 : (c0.error_messages.getD []).Nodup := (h d hd c0 hcd).2.2
  refine ⟨k, c0, rest, hsel, hcf, ?_⟩
  rw [hemm, foldl_addKey_eq_dedupFirst hnodup0]

/-- Claim C3, witness: the duplicate-freedom and first-seen-order
characterisation at the concrete input `[dFill]`. -/
theorem C3_witness :
    (∀ d ∈ [dFill], ∀ c ∈ d.components,
      descNodup c.actions = true ∧ descNodup c.fields = true ∧
        (c.error_messages.getD []).Nodup) ∧
    ∀ m ∈ (merge_ui_jsons [dFill]).components,
      (descNodup m.actions = true ∧ descNodup m.fields = true ∧
        (m.error_messages.getD []).Nodup) ∧
      ∃ k c0 rest, m.selector = some k ∧
        compsFor k (allComps [dFill]) = c0 :: rest ∧
        m.error_messages =
          some (dedupFirst (c0.error_messages.getD [] ++ errTexts rest)) :=
  ⟨by decide, C3_amended [dFill] (by decide)⟩

/-- Claim C4: merging two single-component documents sharing a selector
yields exactly one component whose `actions` and `fields` are each,
as sets under exact descriptor equality, the union of the two inputs'
descriptor sets, with no duplicates. -/
theorem C4_union (u1 u2 : Option String) (c1 c2 : Component) (s : String)
    (h1 : c1.selector = some s) (hs : s ≠ "") (h2 : c2.selector = some s) :
    ∃ m, (merge_ui_jsons [⟨u1, [c1]⟩, ⟨u2, [c2]⟩]).components = [m] ∧
      descNodup m.actions = true ∧ descNodup m.fields = true ∧
      (∀ d, descIn d m.actions = (descIn d c1.actions || descIn d c2.actions)) ∧
      (∀ d, descIn d m.fields = (descIn d c1.fields || descIn d c2.fields)) := by
  refine ⟨mergeComponent (initComponent c1) c2,
    merge_two_singletons u1 u2 c1 c2 s h1 hs h2, ?_, ?_, ?_, ?_⟩
  · show descNodup (unionDescs c1.actions c2.actions) = true
    exact descNodup_unionDescs _ _
  · show descNodup (unionDescs c1.fields c2.fields) = true
    exact descNodup_unionDescs _ _
  · intro d
    show descIn d (unionDescs c1.actions c2.actions) = _
    exact descIn_unionDescs _ _ d
  · intro d
    show descIn d (unionDescs c1.fields c2.fields) = _
    exact descIn_unionDescs _ _ d

/-- Claim C4, witness: the descriptor-set union at the spec's scenario
(`cFill` with a fill action, `cClickErr` with a click action and one
field, sharing selector `#name`). -/
theorem C4_witness :
    (cFill.selector = some "#name" ∧ ("#name" : String) ≠ "" ∧
      cClickErr.selector = some "#name") ∧
    ∃ m, (merge_ui_jsons [⟨some "/sp", [cFill]⟩, ⟨some "", [cClickErr]⟩]).components = [m] ∧
      descNodup m.actions = true ∧ descNodup m.fields = true ∧
      (∀ d, descIn d m.actions = (descIn d cFill.actions || descIn d cClickErr.actions)) ∧
      (∀ d, descIn d m.fields = (descIn d cFill.fields || descIn d cClickErr.fields)) :=
  ⟨⟨rfl, by decide, rfl⟩,
    C4_union (some "/sp") (some "") cFill cClickErr "#name" rfl (by decide) rfl⟩

/-- Claim C5: the merged result's `pageUrl` is the first non-empty
`pageUrl` encountered scanning the inputs in order, and `""` when no
input has one; later non-empty values never replace it. -/
theorem C5_pageUrl (docs : List UIDocument) :
    (merge_ui_jsons docs).pageUrl = firstNonEmptyUrl docs := by
  show (docs.foldl stepDoc initState).pageUrl = firstNonEmptyUrl docs
  rw [foldl_stepDoc_pageUrl]
  simp [initState]

/-- Claim C6: the merged output holds exactly one component per distinct
non-empty selector occurring in the inputs, in order of first
occurrence: the output's selectors are the first-occurrence
deduplication of all input selectors. -/
theorem C6_selectors (docs : List UIDocument) :
    (merge_ui_jsons docs).components.map Component.selector =
      (dedupFirst (truthySelectors docs)).map some := by
  obtain ⟨hkeys, hsels, hem⟩ := goodState_merge docs
  show ((docs.foldl stepDoc initState).compMap.map (fun p => p.2)).map Component.selector = _
  rw [List.map_map]
  have hcg : (docs.foldl stepDoc initState).compMap.map (Component.selector ∘ fun p => p.2) =
      (docs.foldl stepDoc initState).compMap.map (fun p => some p.1) :=
    List.map_congr_left fun p hp => (hsels p hp).1
  rw [hcg]
  have hm2 : (docs.foldl stepDoc initState).compMap.map (fun p => some p.1) =
      ((docs.foldl stepDoc initState).compMap.map Prod.fst).map some := by
    rw [List.map_map]
    rfl
  rw [hm2, keys_foldl_stepDoc]
  rfl

/-- Claim C7: a component without a selector (absent or empty) never
appears in the merged output, and removing it from any input leaves the
whole merge result unchanged. -/
theorem C7_no_selector (c : Component)
    (h : c.selector = none ∨ c.selector = some "")
    (ds1 ds2 : List UIDocument) (u : Option String) (cs1 cs2 : List Component) :
    merge_ui_jsons (ds1 ++ ⟨u, cs1 ++ c :: cs2⟩ :: ds2) =
      merge_ui_jsons (ds1 ++ ⟨u, cs1 ++ cs2⟩ :: ds2) ∧
    ∀ comp ∈ (merge_ui_jsons (ds1 ++ ⟨u, cs1 ++ c :: cs2⟩ :: ds2)).components,
      selTruthy comp = true := by
  have hft : selTruthy c = false := by
    rcases h with h | h <;> simp [selTruthy, h]
  exact ⟨merge_skip_middle hft ds1 ds2 u cs1 cs2, merge_components_selTruthy _⟩

/-- Claim C7, witness: dropping the selector-less component
`cNoSelector` next to `cFill` leaves the merge unchanged. -/
theorem C7_witness :
    (cNoSelector.selector = none ∨ cNoSelector.selector = some "") ∧
    (merge_ui_jsons ([] ++ ⟨some "/sp", [] ++ cNoSelector :: [cFill]⟩ :: []) =
        merge_ui_jsons ([] ++ ⟨some "/sp", [] ++ [cFill]⟩ :: []) ∧
      ∀ comp ∈ (merge_ui_jsons
          ([] ++ ⟨some "/sp", [] ++ cNoSelector :: [cFill]⟩ :: [])).components,
        selTruthy comp = true) :=
  ⟨Or.inl rfl, C7_no_selector cNoSelector (Or.inl rfl) [] [] (some "/sp") [] [cFill]⟩

/-- Claim C8: splitting produces exactly one output per section, in
order, holding the section unmodified under the key derived from
`Section_ID` and `Section_Name` (spaces replaced by underscores), and an
absent `Section_ID` is replaced by the fixed placeholder `N/A` without
failing. -/
theorem C8_split (sections : List SrsSection) :
    split_srs_json sections = sections.map (fun s => (sectionKey s, s)) ∧
    ∀ (nm : Option String) (b : List (String × String)),
      sectionKey { Section_ID := none, Section_Name := nm, body := b } =
        "N/A" ++ "-" ++ ((nm.getD "Unnamed").replace " " "_") ++ ".json" := by
  refine ⟨?_, fun nm b => rfl⟩
  exact split_srs_json_eq_map sections

/-- Claim C9: over well-formed typed inputs the merge, with its one
unguarded dict subscript modelled as a fallible access, never reaches an
error, and the split produces one output per section; both are total. -/
theorem C9_total (docs : List UIDocument) (sections : List SrsSection) :
    merge_ui_jsons_checked docs = Except.ok (merge_ui_jsons docs) ∧
    (split_srs_json sections).length = sections.length := by
  constructor
  · unfold merge_ui_jsons_checked
    rw [foldlM_stepDocChecked_ok goodState_init docs]
    rfl
  · rw [split_srs_json_eq_map]
    exact List.length_map sections _

/-- Claim C10: the heap-model merge never writes to an address holding
an input component — the whole input prefix of the store is unchanged —
and every accumulator entry points at a freshly allocated copy. -/
theorem C10_frame (h : Heap) (docs : List HeapDoc) (i : Nat) (hi : i < h.length) :
    (merge_ui_jsons_heap h docs).heap[i]? = h[i]? ∧
    ∀ p ∈ (merge_ui_jsons_heap h docs).compMap, h.length ≤ p.2 := by
  obtain ⟨hlen, hget, haddr⟩ := heapInv_merge h docs
  exact ⟨hget i hi, haddr⟩

/-- Claim C10, witness: the frame property on a one-component store
whose component is merged twice. -/
theorem C10_witness :
    0 < ([cErrText] : Heap).length ∧
    ((merge_ui_jsons_heap [cErrText] [⟨some "u", [0, 0]⟩]).heap[0]? =
        ([cErrText] : Heap)[0]? ∧
      ∀ p ∈ (merge_ui_jsons_heap [cErrText] [⟨some "u", [0, 0]⟩]).compMap,
        ([cErrText] : Heap).length ≤ p.2) :=
  ⟨by decide, C10_frame [cErrText] [⟨some "u", [0, 0]⟩] 0 (by decide)⟩

end Generator
